import Mathlib

/-!
# Verification of the cube kinematics engine

A shallow embedding of the logical core of the interactive 3D Rubik's Cube
application: the move table (`src/types.ts`), the 27-cubie store and its
commit step (`finishMove` in the screen-space `Cube3D` variant, and the
id-snapshot commit of `src/components/Cube3D.tsx`), the animation state
machine of the per-frame callback, the drag-gesture move resolver
(`determineBestMove`), the scramble generator and the queue handler of
`src/App.tsx`.

Conventions of the embedding:
* Logical cubie positions are exact integer triples.  The source stores them
  in floating-point `THREE.Vector3`s but re-rounds every component to the
  nearest integer at each commit, so all observable logical positions are
  integers; a bridge lemma (`qact_moveQuat`) checks that the exact quaternion
  rotation of an integer lattice point is the integral value our `rotatePos`
  computes, hence `Math.round` is the identity there.
* Orientation quaternions of quarter turns have components in
  `{0, ±1/2·√2, ...}`; we compute in the ring `ℚ + ℚ·√2` (`Q2`), which is
  exact.  The source's `setFromAxisAngle`/`premultiply` float arithmetic is
  the IEEE shadow of this exact computation, and the spec itself mandates
  exact quaternion composition ("recomputing orientation via exact
  quaternion composition").
* The irrational inputs of the screen-space resolver (camera projection,
  `cos 10°`/`sin 10°`, vector normalisation) are universally quantified
  parameters, so theorems about the resolver hold for every camera
  transform and every value of those trigonometric constants.
-/

/-- Axis enumeration, `type Axis = 'x' | 'y' | 'z'` of `src/types.ts`. -/
inductive Axis : Type where
  | x
  | y
  | z
  deriving DecidableEq, Repr

/-- A canonical quarter-turn move (`interface Move` of `src/types.ts`).
The optional display `name` field ("U", "U-prime", ...) is carried by the
source only for UI labels and never read by any logic, so it is omitted. -/
structure Move where
  axis : Axis
  slice : ℤ
  direction : ℤ
  deriving DecidableEq, Repr

/-- An element `a + b·√2` of the ring `ℚ[√2]`, represented formally.
All quaternion components produced by composing quarter-turn quaternions
live in this ring, so orientation arithmetic is exact here. -/
structure Q2 where
  a : ℚ
  b : ℚ
  deriving DecidableEq, Repr

def Q2.add (p q : Q2) : Q2 := ⟨p.a + q.a, p.b + q.b⟩

def Q2.sub (p q : Q2) : Q2 := ⟨p.a - q.a, p.b - q.b⟩

def Q2.mul (p q : Q2) : Q2 := ⟨p.a * q.a + 2 * p.b * q.b, p.a * q.b + p.b * q.a⟩

def Q2.neg (p : Q2) : Q2 := ⟨-p.a, -p.b⟩

instance : Add Q2 := ⟨Q2.add⟩

instance : Sub Q2 := ⟨Q2.sub⟩

instance : Mul Q2 := ⟨Q2.mul⟩

instance : Neg Q2 := ⟨Q2.neg⟩

instance : Zero Q2 := ⟨⟨0, 0⟩⟩

instance : One Q2 := ⟨⟨1, 0⟩⟩

@[simp] theorem Q2.add_def (a b c d : ℚ) : (⟨a, b⟩ : Q2) + ⟨c, d⟩ = ⟨a + c, b + d⟩ := rfl

@[simp] theorem Q2.sub_def (a b c d : ℚ) : (⟨a, b⟩ : Q2) - ⟨c, d⟩ = ⟨a - c, b - d⟩ := rfl

@[simp] theorem Q2.mul_def (a b c d : ℚ) :
    (⟨a, b⟩ : Q2) * ⟨c, d⟩ = ⟨a * c + 2 * b * d, a * d + b * c⟩ := rfl

@[simp] theorem Q2.neg_def (a b : ℚ) : -(⟨a, b⟩ : Q2) = ⟨-a, -b⟩ := rfl

@[simp] theorem Q2.zero_def : (0 : Q2) = ⟨0, 0⟩ := rfl

@[simp] theorem Q2.one_def : (1 : Q2) = ⟨1, 0⟩ := rfl

/-- A quaternion with components in `ℚ[√2]`, field order `x y z w` as in
`THREE.Quaternion`. -/
structure Quat where
  x : Q2
  y : Q2
  z : Q2
  w : Q2
  deriving DecidableEq, Repr

/-- `new THREE.Quaternion()` defaults to `(x,y,z,w) = (0,0,0,1)`. -/
def identityQuat : Quat := ⟨0, 0, 0, 1⟩

/-- Hamilton product, exactly `THREE.Quaternion.multiplyQuaternions(p, q)`;
`r.premultiply(q)` in the source is `qmul q r`. -/
def qmul (p q : Quat) : Quat :=
  ⟨p.x * q.w + p.w * q.x + p.y * q.z - p.z * q.y,
   p.y * q.w + p.w * q.y + p.z * q.x - p.x * q.z,
   p.z * q.w + p.w * q.z + p.x * q.y - p.y * q.x,
   p.w * q.w - p.x * q.x - p.y * q.y - p.z * q.z⟩

/-- Componentwise negation of a quaternion. -/
def qneg (q : Quat) : Quat := ⟨-q.x, -q.y, -q.z, -q.w⟩

/-- Quaternion conjugate. -/
def qconj (q : Quat) : Quat := ⟨-q.x, -q.y, -q.z, q.w⟩

/-- The quaternion of one quarter turn:
`new THREE.Quaternion().setFromAxisAngle(axisVec, (Math.PI / 2) * direction)`
for `direction ∈ {1, -1}` (the only values in the move table).  Its scalar
part is `cos(±π/4) = √2/2 = ⟨0, 1/2⟩` and its `axis` component is
`sin((π/4)·direction) = direction·√2/2 = ⟨0, direction/2⟩`. -/
def moveQuat (a : Axis) (d : ℤ) : Quat :=
  let h : Q2 := ⟨0, 1 / 2⟩
  let s : Q2 := ⟨0, (d : ℚ) / 2⟩
  match a with
  | .x => ⟨s, 0, 0, h⟩
  | .y => ⟨0, s, 0, h⟩
  | .z => ⟨0, 0, s, h⟩

/-- An exact integer lattice position (the source's `THREE.Vector3`
re-rounded to integers at every commit). -/
structure Vec3 where
  x : ℤ
  y : ℤ
  z : ℤ
  deriving DecidableEq, Repr

/-- Coordinate of a position along an axis. -/
def Vec3.coord (p : Vec3) : Axis → ℤ
  | .x => p.x
  | .y => p.y
  | .z => p.z

/-- `isInSlice(pos, axis, sliceVal)` of the source: the coordinate along
`axis` is within `epsilon = 0.1` of `sliceVal`, i.e. `|coord - sliceVal| < 1/10`.
Both sides are scaled by 10 (`10·|coord - sliceVal| < 1`) so the comparison
stays in the integers, where kernel evaluation is direct. -/
def isInSlice (p : Vec3) (a : Axis) (sliceVal : ℤ) : Bool :=
  match a with
  | .x => decide (10 * (p.x - sliceVal).natAbs < 1)
  | .y => decide (10 * (p.y - sliceVal).natAbs < 1)
  | .z => decide (10 * (p.z - sliceVal).natAbs < 1)

/-- Exact 90°·`d` rotation of a lattice point about a coordinate axis, the
value of `pos.clone().applyQuaternion(qRot)` followed by `Math.round` of
each component (for `d ∈ {1,-1}`; see `qact_moveQuat` for the proof that
this is the quaternion action). -/
def rotatePos (a : Axis) (d : ℤ) (p : Vec3) : Vec3 :=
  match a with
  | .x => ⟨p.x, -d * p.z, d * p.y⟩
  | .y => ⟨d * p.z, p.y, -d * p.x⟩
  | .z => ⟨-d * p.y, d * p.x, p.z⟩

/-- One of the 27 cubies.  The `name` debug label of the source (never read
by any logic) is omitted. -/
structure Cubie where
  id : ℕ
  position : Vec3
  rotation : Quat
  deriving DecidableEq, Repr

/-- Recover a cubie's creation-time lattice coordinates from its stable id:
`ix = floor(id/9) - 1`, `iy = floor((id%9)/3) - 1`, `iz = id%3 - 1`
(the decoding used by the renderer for the per-cubie materials). -/
def idToCoords (i : ℕ) : Vec3 :=
  ⟨(↑(i / 9) : ℤ) - 1, (↑(i % 9 / 3) : ℤ) - 1, (↑(i % 3) : ℤ) - 1⟩

/-- The initial store: 27 cubies created by the nested
`for x, for y, for z` loops over `{-1,0,1}` with `id` incrementing, so
`id = (x+1)*9 + (y+1)*3 + (z+1)` and the position is `idToCoords id`. -/
def initCubies : List Cubie :=
  (List.range 27).map fun i =>
    { id := i
      position := idToCoords i
      rotation := identityQuat }

/-- The rewrite applied to an affected cubie at commit: rotate the position
exactly and re-round (`rotatePos`), and premultiply the orientation by the
turn quaternion. -/
def rotateCubie (m : Move) (c : Cubie) : Cubie :=
  { c with
    position := rotatePos m.axis m.direction c.position
    rotation := qmul (moveQuat m.axis m.direction) c.rotation }

/-- The per-cubie case of the `setCubies(prev => prev.map(c => ...))` commit
in `finishMove`: rewrite the cubie iff it lies in the turned slice. -/
def stepCubie (m : Move) (c : Cubie) : Cubie :=
  if isInSlice c.position m.axis m.slice then rotateCubie m c else c

/-- The store commit of `finishMove` (screen-space `Cube3D` variant): map
the slice-conditional rewrite over the whole store. -/
def finishMove (m : Move) (cubies : List Cubie) : List Cubie :=
  cubies.map (stepCubie m)

/-- Apply a queue of moves in FIFO order, each run to completion. -/
def applyMoves (ms : List Move) (cubies : List Cubie) : List Cubie :=
  ms.foldl (fun s m => finishMove m s) cubies

/-- The `MOVES` table of `src/types.ts`, in object-insertion order
(`Object.entries`/`Object.keys` order): one clockwise/counter-clockwise pair
per face. -/
def MOVES : List (String × Move) :=
  [("U1", ⟨Axis.y, 1, -1⟩), ("U2", ⟨Axis.y, 1, 1⟩),
   ("D1", ⟨Axis.y, -1, 1⟩), ("D2", ⟨Axis.y, -1, -1⟩),
   ("L1", ⟨Axis.x, -1, 1⟩), ("L2", ⟨Axis.x, -1, -1⟩),
   ("R1", ⟨Axis.x, 1, -1⟩), ("R2", ⟨Axis.x, 1, 1⟩),
   ("F1", ⟨Axis.z, 1, -1⟩), ("F2", ⟨Axis.z, 1, 1⟩),
   ("B1", ⟨Axis.z, -1, 1⟩), ("B2", ⟨Axis.z, -1, -1⟩)]

/-- The twelve move values of the table. -/
def moveValues : List Move := MOVES.map (fun e => e.2)

/-! ## Basic facts about the embedding -/

theorem MOVES_direction_pm : ∀ e ∈ MOVES, e.2.direction = 1 ∨ e.2.direction = -1 := by
  decide

theorem MOVES_slice_pm : ∀ e ∈ MOVES, e.2.slice = 1 ∨ e.2.slice = -1 := by
  decide

/-- `isInSlice` on integer positions is exact coordinate equality: the 0.1
tolerance only absorbs float error, which re-rounding has already removed. -/
theorem isInSlice_iff (p : Vec3) (a : Axis) (v : ℤ) :
    isInSlice p a v = true ↔ p.coord a = v := by
  have key : ∀ n : ℤ, (10 * (n - v).natAbs < 1 ↔ n = v) := by
    intro n
    omega
  cases a <;> simp only [isInSlice, Vec3.coord, decide_eq_true_eq] <;> exact key _

theorem isInSlice_false_of_ne {p : Vec3} {a : Axis} {v : ℤ} (h : p.coord a ≠ v) :
    isInSlice p a v = false := by
  rw [Bool.eq_false_iff]
  intro hc
  exact h ((isInSlice_iff p a v).mp hc)

/-- Rotation about an axis preserves the coordinate along that axis, hence
slice membership is stable across the commit of a move in that slice. -/
theorem coord_rotatePos (a : Axis) (d : ℤ) (p : Vec3) :
    (rotatePos a d p).coord a = p.coord a := by
  cases a <;> simp [rotatePos, Vec3.coord]

theorem isInSlice_rotatePos (a : Axis) (d : ℤ) (p : Vec3) (v : ℤ) :
    isInSlice (rotatePos a d p) a v = isInSlice p a v := by
  by_cases h : p.coord a = v
  · have h1 : isInSlice p a v = true := (isInSlice_iff p a v).mpr h
    have h2 : isInSlice (rotatePos a d p) a v = true := by
      rw [isInSlice_iff, coord_rotatePos]; exact h
    rw [h1, h2]
  · have h1 : isInSlice p a v = false := isInSlice_false_of_ne h
    have h2 : isInSlice (rotatePos a d p) a v = false := by
      apply isInSlice_false_of_ne
      rw [coord_rotatePos]; exact h
    rw [h1, h2]

/-- Embed an integer in `ℚ[√2]`. -/
def intQ2 (n : ℤ) : Q2 := ⟨(n : ℚ), 0⟩

/-- The action of a unit quaternion on a lattice point, `q · (0,p) · q*`
(the exact value of `THREE.Vector3.applyQuaternion`). -/
def qact (q : Quat) (p : Vec3) : Quat :=
  qmul (qmul q ⟨intQ2 p.x, intQ2 p.y, intQ2 p.z, 0⟩) (qconj q)

/-- Bridge lemma: the exact quaternion action of a quarter-turn quaternion on
an integer lattice point is the integer vector computed by `rotatePos`.
Hence the source's `applyQuaternion` followed by `Math.round` per component
produces exactly `rotatePos` on logical (integer) positions. -/
theorem qact_moveQuat (a : Axis) (d : ℤ) (hd : d = 1 ∨ d = -1) (p : Vec3) :
    qact (moveQuat a d) p =
      ⟨intQ2 (rotatePos a d p).x, intQ2 (rotatePos a d p).y,
       intQ2 (rotatePos a d p).z, 0⟩ := by
  obtain ⟨px, py, pz⟩ := p
  rcases hd with rfl | rfl <;> cases a <;>
    simp [qact, qmul, qconj, moveQuat, intQ2, rotatePos, Quat.mk.injEq, Q2.mk.injEq] <;>
    and_intros <;> ring

/-- A quarter turn followed by the opposite quarter turn about the same axis
is the identity on lattice positions. -/
theorem rotatePos_inv (a : Axis) (d : ℤ) (hd : d = 1 ∨ d = -1) (p : Vec3) :
    rotatePos a (-d) (rotatePos a d p) = p := by
  obtain ⟨px, py, pz⟩ := p
  rcases hd with rfl | rfl <;> cases a <;> simp [rotatePos, Vec3.mk.injEq]

/-- A quarter-turn quaternion times its opposite-direction partner cancels
exactly (in the exact ring `ℚ[√2]`, with no float drift). -/
theorem qmul_moveQuat_inv (a : Axis) (d : ℤ) (hd : d = 1 ∨ d = -1) (r : Quat) :
    qmul (moveQuat a (-d)) (qmul (moveQuat a d) r) = r := by
  obtain ⟨⟨rx1, rx2⟩, ⟨ry1, ry2⟩, ⟨rz1, rz2⟩, ⟨rw1, rw2⟩⟩ := r
  rcases hd with rfl | rfl <;> cases a <;>
    simp [qmul, moveQuat, Quat.mk.injEq, Q2.mk.injEq] <;> and_intros <;> ring

/-- Pointwise inverse law for the commit step. -/
theorem stepCubie_inv (a : Axis) (sl d : ℤ) (hd : d = 1 ∨ d = -1) (c : Cubie) :
    stepCubie ⟨a, sl, -d⟩ (stepCubie ⟨a, sl, d⟩ c) = c := by
  obtain ⟨cid, cpos, crot⟩ := c
  cases h : isInSlice cpos a sl
  · simp [stepCubie, h]
  · have h2 : isInSlice (rotatePos a d cpos) a sl = true := by
      rw [isInSlice_rotatePos]; exact h
    simp only [stepCubie, rotateCubie, h, if_true, h2]
    simp [rotatePos_inv a d hd, qmul_moveQuat_inv a d hd]

/-- C1: for every one of the 12 predefined moves, applying the move to
completion and then applying the move with the same axis and slice but
opposite direction (its table-defined inverse) to completion returns every
affected cubie's position and orientation exactly to its pre-move value —
the composition is the identity on the logical cube state. -/
theorem C1_inverse_law (k1 k2 : String) (m1 m2 : Move)
    (h1 : (k1, m1) ∈ MOVES) (h2 : (k2, m2) ∈ MOVES)
    (hax : m2.axis = m1.axis) (hsl : m2.slice = m1.slice)
    (hdir : m2.direction = -m1.direction) (s : List Cubie) :
    finishMove m2 (finishMove m1 s) = s := by
  have hd := MOVES_direction_pm (k1, m1) h1
  obtain ⟨a, sl, d⟩ := m1
  obtain ⟨a2, sl2, d2⟩ := m2
  dsimp only at hax hsl hdir hd
  rw [hax, hsl, hdir]
  simp only [finishMove, List.map_map]
  have hpt : ∀ c, (stepCubie ⟨a, sl, -d⟩ ∘ stepCubie ⟨a, sl, d⟩) c = c :=
    fun c => stepCubie_inv a sl d hd c
  rw [List.map_congr_left (fun c _ => hpt c)]
  exact List.map_id s

/-- Witness for C1: the U1/U2 pair on the initial store. -/
theorem C1_inverse_law_witness :
    finishMove ⟨Axis.y, 1, 1⟩ (finishMove ⟨Axis.y, 1, -1⟩ initCubies) = initCubies :=
  C1_inverse_law ("U1") ("U2") ⟨Axis.y, 1, -1⟩ ⟨Axis.y, 1, 1⟩
    (by decide) (by decide) rfl rfl (by decide) initCubies

/-- The 27 lattice points of `{-1,0,1}³`, each listed exactly once, in the
creation order of the initial store. -/
def lattice : List Vec3 :=
  [⟨-1, -1, -1⟩, ⟨-1, -1, 0⟩, ⟨-1, -1, 1⟩, ⟨-1, 0, -1⟩, ⟨-1, 0, 0⟩,
   ⟨-1, 0, 1⟩, ⟨-1, 1, -1⟩, ⟨-1, 1, 0⟩, ⟨-1, 1, 1⟩, ⟨0, -1, -1⟩,
   ⟨0, -1, 0⟩, ⟨0, -1, 1⟩, ⟨0, 0, -1⟩, ⟨0, 0, 0⟩, ⟨0, 0, 1⟩,
   ⟨0, 1, -1⟩, ⟨0, 1, 0⟩, ⟨0, 1, 1⟩, ⟨1, -1, -1⟩, ⟨1, -1, 0⟩,
   ⟨1, -1, 1⟩, ⟨1, 0, -1⟩, ⟨1, 0, 0⟩, ⟨1, 0, 1⟩, ⟨1, 1, -1⟩,
   ⟨1, 1, 0⟩, ⟨1, 1, 1⟩]

/-- The list of current positions of a store. -/
def posList (s : List Cubie) : List Vec3 := s.map (fun c => c.position)

/-- The action of a commit on one position. -/
def stepPos (m : Move) (p : Vec3) : Vec3 :=
  if isInSlice p m.axis m.slice then rotatePos m.axis m.direction p else p

theorem stepCubie_position (m : Move) (c : Cubie) :
    (stepCubie m c).position = stepPos m c.position := by
  by_cases h : isInSlice c.position m.axis m.slice <;>
    simp [stepCubie, stepPos, rotateCubie, h]

theorem posList_finishMove (m : Move) (s : List Cubie) :
    posList (finishMove m s) = (posList s).map (stepPos m) := by
  simp only [posList, finishMove, List.map_map]
  exact List.map_congr_left fun c _ => stepCubie_position m c

theorem initCubies_posList : posList initCubies = lattice := by decide

theorem lattice_nodup : lattice.Nodup := by decide

/-- Each of the 12 table moves permutes the 27 lattice points. -/
theorem stepPos_lattice_perm : ∀ e ∈ MOVES, (lattice.map (stepPos e.2)).Perm lattice := by
  decide

/-- Invariant propagation: any sequence of completed table moves keeps the
store's position list a permutation of the lattice. -/
theorem applyMoves_posList_perm (ms : List Move) (s : List Cubie)
    (hmem : ∀ m ∈ ms, m ∈ moveValues) (hperm : (posList s).Perm lattice) :
    (posList (applyMoves ms s)).Perm lattice := by
  induction ms generalizing s with
  | nil => exact hperm
  | cons m ms ih =>
    have hstep : applyMoves (m :: ms) s = applyMoves ms (finishMove m s) := rfl
    rw [hstep]
    apply ih (finishMove m s) (fun x hx => hmem x (List.mem_cons_of_mem _ hx))
    rw [posList_finishMove]
    have hm : m ∈ moveValues := hmem m (List.mem_cons_self _ _)
    obtain ⟨e, he, rfl⟩ : ∃ e ∈ MOVES, e.2 = m := by
      simpa [moveValues] using hm
    exact (hperm.map (stepPos e.2)).trans (stepPos_lattice_perm e he)

/-- C2: in every state reachable by a finite sequence of completed table
moves from the initialized store (no animation in flight), the 27 cubie
positions are exactly the 27 lattice points of `{-1,0,1}³`, each occurring
exactly once: the position list is a permutation of the duplicate-free
enumeration `lattice`. -/
theorem C2_bijection (ms : List Move) (hmem : ∀ m ∈ ms, m ∈ moveValues) :
    (posList (applyMoves ms initCubies)).Perm lattice ∧ lattice.Nodup :=
  ⟨applyMoves_posList_perm ms initCubies hmem
    (by rw [initCubies_posList]), lattice_nodup⟩

/-- Witness for C2 at the two-move sequence U1, R1. -/
theorem C2_bijection_witness :
    (posList (applyMoves [⟨Axis.y, 1, -1⟩, ⟨Axis.x, 1, -1⟩] initCubies)).Perm lattice ∧
      lattice.Nodup :=
  C2_bijection [⟨Axis.y, 1, -1⟩, ⟨Axis.x, 1, -1⟩] (by decide)

/-- `cubiesInSlice(axis, slice)`: the ids whose current coordinate along the
axis equals the slice, as computed by the `activeCubieIds` filter. -/
def cubiesInSlice (s : List Cubie) (a : Axis) (v : ℤ) : List ℕ :=
  (s.filter (fun c => isInSlice c.position a v)).map (fun c => c.id)

theorem lattice_countP_nine (a : Axis) (v : ℤ) (hv : v = -1 ∨ v = 0 ∨ v = 1) :
    lattice.countP (fun p => isInSlice p a v) = 9 := by
  rcases hv with rfl | rfl | rfl <;> cases a <;> decide

/-- C6: for every valid `(axis, slice)` with `slice ∈ {-1,0,1}`, in any
non-animating state reachable by completed table moves, the slice filter
selects exactly 9 cubie ids. -/
theorem C6_slice_nine (ms : List Move) (hmem : ∀ m ∈ ms, m ∈ moveValues)
    (a : Axis) (v : ℤ) (hv : v = -1 ∨ v = 0 ∨ v = 1) :
    (cubiesInSlice (applyMoves ms initCubies) a v).length = 9 := by
  have hperm := applyMoves_posList_perm ms initCubies hmem (by rw [initCubies_posList])
  have hlen : (cubiesInSlice (applyMoves ms initCubies) a v).length
      = (posList (applyMoves ms initCubies)).countP (fun p => isInSlice p a v) := by
    rw [cubiesInSlice, List.length_map, ← List.countP_eq_length_filter, posList,
      List.countP_map]
    rfl
  rw [hlen, hperm.countP_eq, lattice_countP_nine a v hv]

/-- Witness for C6: the R slice after one U1 move. -/
theorem C6_slice_nine_witness :
    (cubiesInSlice (applyMoves [⟨Axis.y, 1, -1⟩] initCubies) Axis.x 1).length = 9 :=
  C6_slice_nine [⟨Axis.y, 1, -1⟩] (by decide) Axis.x 1 (by decide)

/-- Four quarter turns in the same direction restore every lattice point. -/
theorem rotatePos_four (a : Axis) (d : ℤ) (hd : d = 1 ∨ d = -1) (p : Vec3) :
    rotatePos a d (rotatePos a d (rotatePos a d (rotatePos a d p))) = p := by
  obtain ⟨px, py, pz⟩ := p
  rcases hd with rfl | rfl <;> cases a <;> simp [rotatePos, Vec3.mk.injEq]

/-- Four quarter-turn quaternions compose to the rotation by 360°, which in
the unit-quaternion double cover is the NEGATED identity: premultiplying
four times negates every component. -/
theorem qmul_moveQuat_four (a : Axis) (d : ℤ) (hd : d = 1 ∨ d = -1) (r : Quat) :
    qmul (moveQuat a d) (qmul (moveQuat a d) (qmul (moveQuat a d) (qmul (moveQuat a d) r)))
      = qneg r := by
  obtain ⟨⟨rx1, rx2⟩, ⟨ry1, ry2⟩, ⟨rz1, rz2⟩, ⟨rw1, rw2⟩⟩ := r
  rcases hd with rfl | rfl <;> cases a <;>
    simp [qmul, qneg, moveQuat, Quat.mk.injEq, Q2.mk.injEq] <;> and_intros <;> ring

/-- Pointwise effect of committing the same move four times: position and id
are restored, and an affected cubie's quaternion is negated. -/
theorem stepCubie_four (a : Axis) (sl d : ℤ) (hd : d = 1 ∨ d = -1) (c : Cubie) :
    stepCubie ⟨a, sl, d⟩ (stepCubie ⟨a, sl, d⟩ (stepCubie ⟨a, sl, d⟩ (stepCubie ⟨a, sl, d⟩ c)))
      = if isInSlice c.position a sl then { c with rotation := qneg c.rotation } else c := by
  obtain ⟨cid, cpos, crot⟩ := c
  cases h : isInSlice cpos a sl
  · simp [stepCubie, h]
  · have h1 : isInSlice (rotatePos a d cpos) a sl = true := by
      rw [isInSlice_rotatePos]; exact h
    have h2 : isInSlice (rotatePos a d (rotatePos a d cpos)) a sl = true := by
      rw [isInSlice_rotatePos, isInSlice_rotatePos]; exact h
    have h3 : isInSlice (rotatePos a d (rotatePos a d (rotatePos a d cpos))) a sl = true := by
      rw [isInSlice_rotatePos, isInSlice_rotatePos, isInSlice_rotatePos]; exact h
    simp only [stepCubie, rotateCubie, h, h1, h2, h3, if_true]
    simp [rotatePos_four a d hd, qmul_moveQuat_four a d hd]

theorem initCubies_rotation : ∀ c ∈ initCubies, c.rotation = identityQuat := by
  intro c hc
  simp only [initCubies, List.mem_map] at hc
  obtain ⟨i, _, rfl⟩ := hc
  rfl

/-- Closed form of committing the same move four times from the initial
store: positions and ids are untouched, affected cubies get a negated
quaternion. -/
theorem applyMoves_four_eq (a : Axis) (sl d : ℤ) (hd : d = 1 ∨ d = -1) :
    applyMoves [⟨a, sl, d⟩, ⟨a, sl, d⟩, ⟨a, sl, d⟩, ⟨a, sl, d⟩] initCubies
      = initCubies.map (fun c =>
          if isInSlice c.position a sl then { c with rotation := qneg c.rotation } else c) := by
  show finishMove _ (finishMove _ (finishMove _ (finishMove _ initCubies))) = _
  simp only [finishMove, List.map_map]
  exact List.map_congr_left fun c _ => stepCubie_four a sl d hd c

/-- C3 counterexample: after the queue `[U1, U1, U1, U1]` runs to
completion from the initialized store, it is NOT the case that every
cubie's accumulated orientation quaternion equals the identity — the nine
affected cubies end with the negated identity quaternion `(0,0,0,-1)`
(the same rotation, but not the identity value the claim asserts). -/
theorem C3_counterexample :
    ¬ (∀ c ∈ applyMoves [⟨Axis.y, 1, -1⟩, ⟨Axis.y, 1, -1⟩,
          ⟨Axis.y, 1, -1⟩, ⟨Axis.y, 1, -1⟩] initCubies,
        c.rotation = identityQuat) := by
  intro hall
  have hmem : ({ id := 6, position := ⟨-1, 1, -1⟩, rotation := identityQuat } : Cubie)
      ∈ initCubies := by decide
  have h6 : ({ id := 6, position := ⟨-1, 1, -1⟩, rotation := qneg identityQuat } : Cubie)
      ∈ applyMoves [⟨Axis.y, 1, -1⟩, ⟨Axis.y, 1, -1⟩,
          ⟨Axis.y, 1, -1⟩, ⟨Axis.y, 1, -1⟩] initCubies := by
    rw [applyMoves_four_eq Axis.y 1 (-1) (Or.inr rfl)]
    exact List.mem_map.mpr ⟨_, hmem, by decide⟩
  have hne : qneg identityQuat ≠ identityQuat := by decide
  exact hne (hall _ h6)

/-- C3 (amended): applying any one of the 12 table moves four times, each
run to completion, restores every cubie's id and position exactly, and
leaves every cubie's accumulated orientation equal to the identity
quaternion or its negation — i.e. representing the identity rotation,
though not necessarily the identity quaternion componentwise. -/
theorem C3_order4_amended (k : String) (m : Move) (hm : (k, m) ∈ MOVES) :
    (applyMoves [m, m, m, m] initCubies).map (fun c => (c.id, c.position))
        = initCubies.map (fun c => (c.id, c.position))
    ∧ ∀ c ∈ applyMoves [m, m, m, m] initCubies,
        c.rotation = identityQuat ∨ c.rotation = qneg identityQuat := by
  have hd := MOVES_direction_pm (k, m) hm
  obtain ⟨a, sl, d⟩ := m
  dsimp only at hd
  have happ := applyMoves_four_eq a sl d hd
  constructor
  · rw [happ, List.map_map]
    apply List.map_congr_left
    intro c _
    by_cases h : isInSlice c.position a sl = true <;> simp [h, Function.comp]
  · intro c hc
    rw [happ] at hc
    simp only [List.mem_map] at hc
    obtain ⟨c0, hc0, rfl⟩ := hc
    have hrot := initCubies_rotation c0 hc0
    by_cases h : isInSlice c0.position a sl = true
    · right; simp [h, hrot]
    · left; simp [h, hrot]

/-- Witness for the amended C3 at the move U1. -/
theorem C3_order4_amended_witness :
    (applyMoves [⟨Axis.y, 1, -1⟩, ⟨Axis.y, 1, -1⟩, ⟨Axis.y, 1, -1⟩,
        ⟨Axis.y, 1, -1⟩] initCubies).map (fun c => (c.id, c.position))
        = initCubies.map (fun c => (c.id, c.position))
    ∧ ∀ c ∈ applyMoves [⟨Axis.y, 1, -1⟩, ⟨Axis.y, 1, -1⟩, ⟨Axis.y, 1, -1⟩,
        ⟨Axis.y, 1, -1⟩] initCubies,
        c.rotation = identityQuat ∨ c.rotation = qneg identityQuat :=
  C3_order4_amended ("U1") ⟨Axis.y, 1, -1⟩ (by decide)

/-- The animation state of the per-frame `useFrame` callback: the logical
store, the FIFO move queue, and the transient animation cursor
(`isAnimatingRef`, `currentMoveRef`, `progressRef`).  Progress is the
source's normalized scalar in `[0,1]`, where `1` stands for the full 90°
turn. -/
structure MachState where
  cubies : List Cubie
  queue : List Move
  animating : Bool
  current : Option Move
  progress : ℚ

/-- `const speed = moveQueue.length > 5 ? 20 : 6`. -/
def speedOf (s : MachState) : ℚ := if s.queue.length > 5 then 20 else 6

/-- The first block of `useFrame`: if idle and the queue is non-empty, load
the head move and reset progress (the queue itself is popped only on
completion). -/
def startPhase (s : MachState) : MachState :=
  if s.animating = false ∧ s.queue ≠ [] then
    { s with current := s.queue.head?, animating := true, progress := 0 }
  else s

/-- One invocation of the `useFrame(state, delta)` callback: the start
block, then — when a move is in flight — `progress += delta * speed`;
reaching the 90° target (`progress >= 1`) runs `finishMove` (store commit,
pivot reset, cursor reset, `onMoveComplete` popping the queue head), while
any earlier tick only rotates the visual pivot group and leaves the
logical store untouched. -/
def tick (dt : ℚ) (s : MachState) : MachState :=
  let s1 := startPhase s
  match s1.current, s1.animating with
  | some m, true =>
    let p := s1.progress + dt * speedOf s1
    if 1 ≤ p then
      { s1 with
        cubies := finishMove m s1.cubies
        queue := s1.queue.drop 1
        animating := false
        current := none
        progress := 0 }
    else { s1 with progress := p }
  | _, _ => s1

@[simp] theorem startPhase_cubies (s : MachState) : (startPhase s).cubies = s.cubies := by
  unfold startPhase
  split <;> rfl

@[simp] theorem startPhase_queue (s : MachState) : (startPhase s).queue = s.queue := by
  unfold startPhase
  split <;> rfl

theorem speedOf_startPhase (s : MachState) : speedOf (startPhase s) = speedOf s := by
  simp [speedOf]

/-- C4: while a move is animating and its progress this frame stays below
the 90° target (normalized `1`), the tick leaves every cubie's logical
position and rotation unchanged; and in general a tick either leaves the
store untouched or is the commit transition itself — the frame whose
post-increment progress reaches the target and rewrites the store through
`finishMove`.  Every earlier frame is visual-only. -/
theorem C4_commit_only :
    (∀ (s : MachState) (dt : ℚ) (m : Move), s.animating = true → s.current = some m →
        s.progress + dt * speedOf s < 1 → (tick dt s).cubies = s.cubies)
    ∧ ∀ (s : MachState) (dt : ℚ),
        (tick dt s).cubies = s.cubies
        ∨ ∃ m, (startPhase s).current = some m
            ∧ 1 ≤ (startPhase s).progress + dt * speedOf s
            ∧ (tick dt s).cubies = finishMove m s.cubies := by
  constructor
  · intro s dt m ha hc hlt
    have hsp : startPhase s = s := by simp [startPhase, ha]
    simp only [tick, hsp, hc, ha]
    rw [if_neg (not_le.mpr hlt)]
  · intro s dt
    rcases hc : (startPhase s).current with _ | m
    · left
      simp only [tick, hc]
      exact startPhase_cubies s
    · cases ha : (startPhase s).animating
      · left
        simp only [tick, hc, ha]
        exact startPhase_cubies s
      · by_cases hp : 1 ≤ (startPhase s).progress + dt * speedOf (startPhase s)
        · right
          refine ⟨m, rfl, by rwa [speedOf_startPhase] at hp, ?_⟩
          simp only [tick, hc, ha, if_pos hp]
          rw [startPhase_cubies]
        · left
          simp only [tick, hc, ha, if_neg hp]
          exact startPhase_cubies s

/-- A concrete in-flight machine state for the C4 witness: U1 loaded, no
progress yet. -/
def machOne : MachState :=
  { cubies := initCubies, queue := [⟨Axis.y, 1, -1⟩], animating := true,
    current := some ⟨Axis.y, 1, -1⟩, progress := 0 }

/-- Witness for C4: a small tick (progress `0.06 < 1`) leaves the store of
`machOne` untouched, and the general tick alternative holds at `dt = 5`. -/
theorem C4_commit_only_witness :
    (tick (1 / 100) machOne).cubies = machOne.cubies
    ∧ ((tick 5 machOne).cubies = machOne.cubies
        ∨ ∃ m, (startPhase machOne).current = some m
            ∧ 1 ≤ (startPhase machOne).progress + 5 * speedOf machOne
            ∧ (tick 5 machOne).cubies = finishMove m machOne.cubies) :=
  ⟨C4_commit_only.1 machOne (1 / 100) ⟨Axis.y, 1, -1⟩ rfl rfl (by norm_num [speedOf, machOne]),
   C4_commit_only.2 machOne 5⟩

/-- The `FACE_COLORS` palette of `src/types.ts`. -/
structure FaceColors where
  right : String
  left : String
  top : String
  bottom : String
  front : String
  back : String
  core : String

def FACE_COLORS : FaceColors :=
  { right := "#b90000"
    left := "#ff5900"
    top := "#ffffff"
    bottom := "#ffd500"
    front := "#009b48"
    back := "#0045ad"
    core := "#1a1a1a" }

/-- The six face colors a cubie at creation-time position `p` receives, in
the box-material order right/left/top/bottom/front/back: a sticker color on
each outward face, the inner-plastic color elsewhere. -/
def colorsFromPos (p : Vec3) : List String :=
  [if p.x = 1 then FACE_COLORS.right else FACE_COLORS.core,
   if p.x = -1 then FACE_COLORS.left else FACE_COLORS.core,
   if p.y = 1 then FACE_COLORS.top else FACE_COLORS.core,
   if p.y = -1 then FACE_COLORS.bottom else FACE_COLORS.core,
   if p.z = 1 then FACE_COLORS.front else FACE_COLORS.core,
   if p.z = -1 then FACE_COLORS.back else FACE_COLORS.core]

/-- The per-cubie material list `myMaterials` of `Cube3D.tsx`, computed on
every render from the cubie's id alone (never from its current position). -/
def colorAssignment (i : ℕ) : List String :=
  colorsFromPos (idToCoords i)

theorem stepCubie_id (m : Move) (c : Cubie) : (stepCubie m c).id = c.id := by
  unfold stepCubie rotateCubie
  split <;> rfl

/-- Any function of the stable id is invariant across any sequence of
committed moves. -/
theorem applyMoves_map_idf {α : Type} (f : ℕ → α) (ms : List Move) (s : List Cubie) :
    (applyMoves ms s).map (fun c => f c.id) = s.map (fun c => f c.id) := by
  induction ms generalizing s with
  | nil => rfl
  | cons m ms ih =>
    have h1 : applyMoves (m :: ms) s = applyMoves ms (finishMove m s) := rfl
    rw [h1, ih]
    simp only [finishMove, List.map_map]
    exact List.map_congr_left fun c _ => by simp [Function.comp, stepCubie_id]

/-- C5: each cubie's face-color assignment is derived once from the cubie's
original lattice coordinates at creation time (`colorAssignment id =
colorsFromPos (creation position)`), and it never changes across any
sequence of moves — color is bound to the cubie's identity (its stable id),
not to its current position. -/
theorem C5_color_binding :
    (∀ c ∈ initCubies, colorAssignment c.id = colorsFromPos c.position)
    ∧ ∀ ms : List Move,
        (applyMoves ms initCubies).map (fun c => colorAssignment c.id)
          = initCubies.map (fun c => colorAssignment c.id) := by
  constructor
  · intro c hc
    simp only [initCubies, List.mem_map] at hc
    obtain ⟨i, _, rfl⟩ := hc
    rfl
  · intro ms
    exact applyMoves_map_idf colorAssignment ms initCubies

/-- Witness for C5 at cubie 6 and the one-move sequence U1. -/
theorem C5_color_binding_witness :
    colorAssignment (Cubie.mk 6 ⟨-1, 1, -1⟩ identityQuat).id
        = colorsFromPos (Cubie.mk 6 ⟨-1, 1, -1⟩ identityQuat).position
    ∧ (applyMoves [⟨Axis.y, 1, -1⟩] initCubies).map (fun c => colorAssignment c.id)
        = initCubies.map (fun c => colorAssignment c.id) :=
  ⟨C5_color_binding.1 ⟨6, ⟨-1, 1, -1⟩, identityQuat⟩ (by decide),
   C5_color_binding.2 [⟨Axis.y, 1, -1⟩]⟩

/-- The own entries of the `MOVES` object literal: the table lookup part of
`MOVES[moveKey]`. -/
def ownMove (key : String) : Option Move :=
  (MOVES.find? (fun e => e.1 == key)).map (fun e => e.2)

/-- The member names every plain JS object literal inherits from
`Object.prototype`: property access on `MOVES` falls through to these when
the key is not an own entry. -/
def protoKeys : List String :=
  ["constructor", "hasOwnProperty", "isPrototypeOf", "propertyIsEnumerable",
   "toLocaleString", "toString", "valueOf", "__proto__",
   "__defineGetter__", "__defineSetter__", "__lookupGetter__", "__lookupSetter__"]

/-- A runtime value `MOVES[moveKey]` can evaluate to: `undefined`, an own
`Move` entry, or a member inherited from `Object.prototype` (a function, or
the prototype object itself for `__proto__`). -/
inductive JSVal where
  | undefined
  | move (m : Move)
  | protoMember (name : String)
  deriving DecidableEq, Repr

/-- `MOVES[moveKey]` of `App.tsx` with JS property-access semantics: an own
entry if the key is in the table, otherwise the truthy inherited
`Object.prototype` member if the key names one, otherwise `undefined`. -/
def jsGet (key : String) : JSVal :=
  match ownMove key with
  | some m => .move m
  | none => if key ∈ protoKeys then .protoMember key else .undefined

/-- JS truthiness of those values: `undefined` is falsy; a `Move` object and
every inherited member (function or prototype object) are truthy. -/
def truthy : JSVal → Bool
  | .undefined => false
  | .move _ => true
  | .protoMember _ => true

/-- `handleMove` of `App.tsx`: `const move = MOVES[moveKey]; if (move)`
append it to the queue.  The queue nominally holds `Move` values, but a
prototype-chain hit is truthy too and gets appended as-is, so the element
type is `JSVal`. -/
def handleMove (key : String) (queue : List JSVal) : List JSVal :=
  let mv := jsGet key
  if truthy mv then queue ++ [mv] else queue

/-- C9 counterexample: the key `toString` is absent from the move table,
yet the enqueue request is NOT a no-op — `MOVES["toString"]` finds the
truthy function inherited from `Object.prototype`, `if (move)` passes, and
the inherited member is appended to the queue. -/
theorem C9_counterexample :
    ownMove ("toString") = none ∧ handleMove ("toString") [] ≠ [] := by
  constructor
  · decide
  · decide

/-- C9 (amended): for every move key string absent from the move table that
does not name an inherited `Object.prototype` member, the lookup evaluates
to `undefined`, which is falsy, so the enqueue request is a no-op: the
queue is left exactly unchanged, nothing is appended, and no error is
raised.  (For absent keys naming inherited members — `toString`,
`valueOf`, ... — the truthy inherited value is appended instead.) -/
theorem C9_invalid_key_noop (key : String) (queue : List JSVal)
    (h1 : ownMove key = none) (h2 : key ∉ protoKeys) :
    handleMove key queue = queue := by
  simp [handleMove, jsGet, h1, h2, truthy]

/-- Witness for the amended C9 with the absent non-prototype key Z9. -/
theorem C9_invalid_key_noop_witness :
    handleMove ("Z9") [JSVal.move ⟨Axis.y, 1, -1⟩] = [JSVal.move ⟨Axis.y, 1, -1⟩] :=
  C9_invalid_key_noop ("Z9") [JSVal.move ⟨Axis.y, 1, -1⟩] (by decide) (by decide)

/-- `activeCubieIds` of `Cube3D.tsx`: the ids of the cubies whose current
logical coordinate along the move's axis matches the slice, snapshotted
when the move starts. -/
def activeCubieIds (m : Move) (cubies : List Cubie) : List ℕ :=
  (cubies.filter (fun c => isInSlice c.position m.axis m.slice)).map (fun c => c.id)

/-- The commit of `Cube3D.tsx`: `setCubies(prev => prev.map(c =>
activeCubieIds.includes(c.id) ? rotated : c))`. -/
def finishMoveTsx (m : Move) (cubies : List Cubie) : List Cubie :=
  let active := activeCubieIds m cubies
  cubies.map (fun c => if c.id ∈ active then rotateCubie m c else c)

/-- C10: the commit rewrites the store positionally — every cubie whose id
is not in the affected slice set computed for the move keeps its id,
position and rotation exactly unchanged, and only the cubies in the
affected set are rewritten (to their rotated value); the store length is
preserved. -/
theorem C10_commit_frame (m : Move) (s : List Cubie) (i : ℕ) (hi : i < s.length)
    (hi2 : i < (finishMoveTsx m s).length) :
    (finishMoveTsx m s).length = s.length
    ∧ ((s.get ⟨i, hi⟩).id ∉ activeCubieIds m s →
        (finishMoveTsx m s).get ⟨i, hi2⟩ = s.get ⟨i, hi⟩)
    ∧ ((s.get ⟨i, hi⟩).id ∈ activeCubieIds m s →
        (finishMoveTsx m s).get ⟨i, hi2⟩ = rotateCubie m (s.get ⟨i, hi⟩)) := by
  have hget : (finishMoveTsx m s).get ⟨i, hi2⟩
      = (fun c => if c.id ∈ activeCubieIds m s then rotateCubie m c else c)
          (s.get ⟨i, hi⟩) := by
    simp [finishMoveTsx, List.getElem_map]
  refine ⟨by simp [finishMoveTsx], ?_, ?_⟩
  · intro h
    rw [hget]
    exact if_neg h
  · intro h
    rw [hget]
    exact if_pos h

/-- Witness for C10: cubie 0 (at `(-1,-1,-1)`, not in the U slice) is
untouched by the U1 commit. -/
theorem C10_commit_frame_witness :
    (finishMoveTsx ⟨Axis.y, 1, -1⟩ initCubies).get ⟨0, by decide⟩
      = initCubies.get ⟨0, by decide⟩ :=
  (C10_commit_frame ⟨Axis.y, 1, -1⟩ initCubies 0 (by decide) (by decide)).2.1 (by decide)

/-- The string form of an axis, as compared by `move.axis === lastAxis` in
the scramble loop (whose `lastAxis` starts as the empty string). -/
def axisStr : Axis → String
  | .x => "x"
  | .y => "y"
  | .z => "z"

theorem MOVES_length : MOVES.length = 12 := rfl

/-- `MOVES[keys[i]]` for a drawn index: `randInt(0, keys.length - 1)` always
lands in `0..11`, so draws are modelled as `Fin 12` indices into the table. -/
def moveAt (d : Fin 12) : Move :=
  (MOVES.get (Fin.cast MOVES_length.symm d)).2

/-- The inner `while (move.axis === lastAxis)` redraw loop: consume draws
from the random stream until one's axis differs from `lastAxis`.  The
stream of pseudo-random draws is an explicit input; if the finite stream
runs out the model stops (the source would keep polling its RNG). -/
def drawMove (last : String) : List (Fin 12) → Option (Move × List (Fin 12))
  | [] => none
  | d :: rest =>
    if axisStr (moveAt d).axis = last then drawMove last rest
    else some (moveAt d, rest)

/-- The `for (i = 0; i < 20; i++)` scramble loop body: take the next
accepted move, remember its axis as `lastAxis`, recurse. -/
def scrambleGo : ℕ → String → List (Fin 12) → List Move
  | 0, _, _ => []
  | n + 1, last, draws =>
    match drawMove last draws with
    | none => []
    | some (m, rest) => m :: scrambleGo n (axisStr m.axis) rest

/-- `scramble` of `App.tsx`: 20 accepted draws starting from the empty
`lastAxis`. -/
def scramble (draws : List (Fin 12)) : List Move :=
  scrambleGo 20 "" draws

theorem drawMove_axis (last : String) (draws : List (Fin 12)) (m : Move)
    (rest : List (Fin 12)) (h : drawMove last draws = some (m, rest)) :
    axisStr m.axis ≠ last := by
  induction draws with
  | nil => simp [drawMove] at h
  | cons d ds ih =>
    by_cases hax : axisStr (moveAt d).axis = last
    · rw [drawMove, if_pos hax] at h
      exact ih h
    · rw [drawMove, if_neg hax] at h
      simp only [Option.some.injEq, Prod.mk.injEq] at h
      obtain ⟨rfl, rfl⟩ := h
      exact hax

theorem scrambleGo_chain (n : ℕ) (last : String) (draws : List (Fin 12)) :
    List.Chain' (fun m1 m2 => m1.axis ≠ m2.axis) (scrambleGo n last draws)
    ∧ ∀ m ∈ (scrambleGo n last draws).head?, axisStr m.axis ≠ last := by
  induction n generalizing last draws with
  | zero => simp [scrambleGo]
  | succ n ih =>
    cases hdm : drawMove last draws with
    | none => simp [scrambleGo, hdm]
    | some pr =>
      obtain ⟨m, rest⟩ := pr
      have hne := drawMove_axis last draws m rest hdm
      simp only [scrambleGo, hdm]
      constructor
      · rw [List.chain'_cons']
        refine ⟨?_, (ih (axisStr m.axis) rest).1⟩
        intro b hb
        have hbne := (ih (axisStr m.axis) rest).2 b hb
        intro heq
        exact hbne (by rw [heq])
      · intro m2 hm2
        simp only [List.head?_cons, Option.mem_def, Option.some.injEq] at hm2
        subst hm2
        exact hne

/-- C7: every move sequence produced by one call of the scramble generator
(drawing from the 12-entry move table) contains no two consecutive moves
sharing the same axis, for every possible outcome of the random draws. -/
theorem C7_scramble_axes (draws : List (Fin 12)) :
    List.Chain' (fun m1 m2 => m1.axis ≠ m2.axis) (scramble draws) :=
  (scrambleGo_chain 20 "" draws).1

/-- A 3D vector with rational components, for the resolver's simulated
small-angle rotation. -/
structure Q3 where
  x : ℚ
  y : ℚ
  z : ℚ
  deriving DecidableEq, Repr

def toQ3 (p : Vec3) : Q3 := ⟨(p.x : ℚ), (p.y : ℚ), (p.z : ℚ)⟩

def Q3.sub (p q : Q3) : Q3 := ⟨p.x - q.x, p.y - q.y, p.z - q.z⟩

/-- `THREE.Vector3.lengthSq`. -/
def Q3.lengthSq (p : Q3) : ℚ := p.x * p.x + p.y * p.y + p.z * p.z

/-- The resolver's simulated small step: rotation by the angle
`degToRad(10) * direction` about the move's axis.  `c10` and `s10` stand
for `cos 10°` and `sin 10°`, which are irrational; they are symbolic
parameters here and the resolver theorems hold for every value
(`cos` is even and `sin` odd, so the angle's sign lands on `s10`). -/
def smallRot (c10 s10 : ℚ) (a : Axis) (d : ℤ) (p : Q3) : Q3 :=
  let s := (d : ℚ) * s10
  match a with
  | .x => ⟨p.x, p.y * c10 - p.z * s, p.y * s + p.z * c10⟩
  | .y => ⟨p.x * c10 + p.z * s, p.y, -(p.x * s) + p.z * c10⟩
  | .z => ⟨p.x * c10 - p.y * s, p.x * s + p.y * c10, p.z⟩

/-- One iteration of the candidate loop of `determineBestMove`: skip the
move if the touched cubie is not in its slice; skip it if the simulated 3D
displacement is (near-)zero (`delta3D.lengthSq() < 0.001`); otherwise score
it (projection to screen space, normalisation and dot product with the drag
direction are folded into the abstract `scoreFn`, so every camera transform
and drag vector is covered) and keep the best-scoring key.  The running
maximum starts at `-Infinity`, modelled as `none`. -/
def resolverStep (scoreFn : Q3 → Q3 → ℚ) (c10 s10 : ℚ) (pos : Vec3)
    (acc : Option ℚ × String) (entry : String × Move) : Option ℚ × String :=
  if isInSlice pos entry.2.axis entry.2.slice = false then acc
  else
    let original := toQ3 pos
    let rotated := smallRot c10 s10 entry.2.axis entry.2.direction original
    let delta3D := rotated.sub original
    if delta3D.lengthSq < 1 / 1000 then acc
    else
      let score := scoreFn original rotated
      match acc.1 with
      | none => (some score, entry.1)
      | some mx => if mx < score then (some score, entry.1) else acc

/-- `determineBestMove` of the screen-space `Cube3D` variant: fold the
candidate loop over the table, then accept the best key only above the
confidence threshold `0.5`. -/
def determineBestMove (scoreFn : Q3 → Q3 → ℚ) (c10 s10 : ℚ) (pos : Vec3) :
    Option String :=
  let r := MOVES.foldl (resolverStep scoreFn c10 s10 pos) (none, "")
  match r.1 with
  | some mx => if 1 / 2 < mx then some r.2 else none
  | none => none

theorem foldl_fixed {α β : Type} (f : β → α → β) (l : List α) (init : β)
    (h : ∀ e ∈ l, ∀ acc, f acc e = acc) : l.foldl f init = init := by
  induction l generalizing init with
  | nil => rfl
  | cons e es ih =>
    rw [List.foldl_cons, h e (List.mem_cons_self _ _)]
    exact ih init (fun x hx acc => h x (List.mem_cons_of_mem _ hx) acc)

theorem resolverStep_skip (scoreFn : Q3 → Q3 → ℚ) (c10 s10 : ℚ) (pos : Vec3)
    (acc : Option ℚ × String) (entry : String × Move)
    (h : isInSlice pos entry.2.axis entry.2.slice = false
        ∨ ((smallRot c10 s10 entry.2.axis entry.2.direction (toQ3 pos)).sub
            (toQ3 pos)).lengthSq < 1 / 1000) :
    resolverStep scoreFn c10 s10 pos acc entry = acc := by
  rcases h with h | h
  · simp only [resolverStep, if_pos h]
  · by_cases h1 : isInSlice pos entry.2.axis entry.2.slice = false
    · simp only [resolverStep, if_pos h1]
    · simp only [resolverStep, if_neg h1, if_pos h]

theorem MOVES_slice_nonzero : ∀ e ∈ MOVES, e.2.slice ≠ 0 := by decide

/-- A face-center cubie (single nonzero coordinate) is skipped by every
table candidate: a candidate whose slice does not contain it fails the
slice test, and a candidate through its own slice rotates it in place, so
the simulated displacement is exactly zero — below the `0.001` threshold
for every value of the trigonometric constants. -/
theorem skip_of_center (aE : Axis) (v d : ℤ) (hv : v ≠ 0) (p : Vec3)
    (c10 s10 : ℚ) (a0 : Axis) (h0 : p.coord a0 ≠ 0)
    (hrest : ∀ b, b ≠ a0 → p.coord b = 0) :
    isInSlice p aE v = false
    ∨ ((smallRot c10 s10 aE d (toQ3 p)).sub (toQ3 p)).lengthSq < 1 / 1000 := by
  by_cases haxis : aE = a0
  · subst haxis
    by_cases hcv : p.coord aE = v
    · right
      cases aE with
      | x =>
        have hy : p.y = 0 := hrest Axis.y (by simp)
        have hz : p.z = 0 := hrest Axis.z (by simp)
        simp [smallRot, toQ3, Q3.sub, Q3.lengthSq, hy, hz]
      | y =>
        have hx : p.x = 0 := hrest Axis.x (by simp)
        have hz : p.z = 0 := hrest Axis.z (by simp)
        simp [smallRot, toQ3, Q3.sub, Q3.lengthSq, hx, hz]
      | z =>
        have hx : p.x = 0 := hrest Axis.x (by simp)
        have hy : p.y = 0 := hrest Axis.y (by simp)
        simp [smallRot, toQ3, Q3.sub, Q3.lengthSq, hx, hy]
    · left
      exact isInSlice_false_of_ne hcv
  · left
    apply isInSlice_false_of_ne
    rw [hrest aE haxis]
    exact fun hc => hv hc.symm

/-- C8: for every drag gesture that starts on a face-center cubie (current
position with exactly one nonzero coordinate) the screen-space resolver
returns no move, for every camera/drag scoring function and every value of
the small-angle trigonometric constants: all candidates containing the
cubie are discarded before any projection or normalisation, so nothing is
divided by zero and no arbitrary move is selected. -/
theorem C8_center_no_move (p : Vec3)
    (h : ∃ a0 : Axis, p.coord a0 ≠ 0 ∧ ∀ b, b ≠ a0 → p.coord b = 0)
    (scoreFn : Q3 → Q3 → ℚ) (c10 s10 : ℚ) :
    determineBestMove scoreFn c10 s10 p = none := by
  obtain ⟨a0, h0, hrest⟩ := h
  have hskip : ∀ e ∈ MOVES, ∀ acc, resolverStep scoreFn c10 s10 p acc e = acc := by
    intro e he acc
    exact resolverStep_skip scoreFn c10 s10 p acc e
      (skip_of_center e.2.axis e.2.slice e.2.direction (MOVES_slice_nonzero e he)
        p c10 s10 a0 h0 hrest)
  unfold determineBestMove
  rw [foldl_fixed _ _ _ hskip]

/-- Witness for C8 at the Up face center `(0,1,0)`. -/
theorem C8_center_no_move_witness :
    determineBestMove (fun _ _ => 1) 1 0 ⟨0, 1, 0⟩ = none :=
  C8_center_no_move ⟨0, 1, 0⟩
    ⟨Axis.y, by decide, by intro b hb; cases b <;> simp_all [Vec3.coord]⟩
    (fun _ _ => 1) 1 0
